import Mathlib

/-!
Shallow embedding of the queue-mongodb module (index.js): a delayed,
retryable work queue stored in a MongoDB collection.  Documents have the
shape { _id, type, proc, runs, data }.  Timestamps are modelled as integer
milliseconds.  MongoDB ObjectIds are modelled as natural numbers carrying
the timestamp embedded at creation time (getTimestamp) in a separate field.
The store gateway primitives (insertOne, findOneAndUpdate, deleteOne,
deleteMany, countDocuments) are embedded over a list of documents; the
MongoDB `_id` field has a unique index, an invariant the model maintains
explicitly (`Sys.wf`).
-/

namespace QueueMongoDB

/-- Payload values are opaque to the queue; modelled as integers. -/
abbrev Payload := Int

/-- A stored queue document: { _id, type, proc, runs, data }.  `idTime` is
the creation timestamp embedded in the ObjectId (`_id.getTimestamp()`). -/
structure Doc where
  id : Nat
  idTime : Int
  type : String
  proc : Int
  runs : Int
  data : Payload
  deriving Repr, DecidableEq

/-- The queue collection: the list of stored documents. -/
abbrev Store := List Doc

/-- Queue instance state: `constructor(type = 'DEFAULT')` sets
`this.maxTries = 3` and `this.processingTime = 300`; both fields are
public and mutable. -/
structure Queue where
  type : String
  maxTries : Int
  processingTime : Int
  deriving Repr, DecidableEq

/-- The constructor with its defaults. -/
def Queue.make (t : String) : Queue :=
  { type := t, maxTries := 3, processingTime := 300 }

/-- The qItem object returned by send and receive:
{ _id, sent: _id.getTimestamp(), runs, data }. -/
structure QItem where
  id : Nat
  sent : Int
  runs : Int
  data : Payload
  deriving Repr, DecidableEq

/-- JavaScript `x || dflt` for an optional numeric argument: `undefined`
(absent) and the falsy number 0 both fall back to the default. -/
def orDefault (v : Option Int) (dflt : Int) : Int :=
  match v with
  | some n => if n = 0 then dflt else n
  | none => dflt

/-- The `delayUntil` argument of send: absent, a Date, a numeric number of
seconds, or a non-numeric value (isNaN). -/
inductive Delay where
  | absent
  | date (t : Int)
  | secs (n : Int)
  | nonNumeric
  deriving Repr, DecidableEq

/-- Start date computed by send: a Date instance wins, else a numeric
delay is seconds added to now, else now (isNaN(undefined) is true). -/
def procOf (delayUntil : Delay) (now : Int) : Int :=
  match delayUntil with
  | .date t => t
  | .secs n => now + n * 1000
  | _ => now

/-- The collection validator installed by dbConnect: `type` is a string of
minLength 1 and `runs` is a number with minimum 0.  insertOne throws on a
document violating it. -/
def validDoc (d : Doc) : Prop :=
  d.type ≠ "" ∧ 0 ≤ d.runs

instance (d : Doc) : Decidable (validDoc d) := by
  unfold validDoc; infer_instance

/-- Filter of receive's findOneAndUpdate call:
{ type: this.type, proc: { $lt: now } }. -/
def eligibleB (t : String) (now : Int) (d : Doc) : Bool :=
  d.type == t && decide (d.proc < now)

/-- The document the store returns first under `sort: { proc: 1 }`: one
with the smallest `proc` (a tie is broken by store order; the model takes
the earliest listed). -/
def selectMin : List Doc → Option Doc
  | [] => none
  | d :: ds =>
    match selectMin ds with
    | none => some d
    | some e => if d.proc ≤ e.proc then some d else some e

/-- The update applied by receive's findOneAndUpdate:
`$set: { proc: newProc }, $inc: { runs: -1 }`. -/
def applySet (newProc : Int) (d : Doc) : Doc :=
  { d with proc := newProc, runs := d.runs - 1 }

/-- Update the single document carrying the given `_id` (the first match;
under the unique `_id` index there is at most one). -/
def updateById (i : Nat) (newProc : Int) : Store → Store
  | [] => []
  | d :: ds => if d.id = i then applySet newProc d :: ds else d :: updateById i newProc ds

/-- MongoDB findOneAndUpdate with filter { type, proc: { $lt: now } },
sort { proc: 1 }, update `$set proc / $inc runs -1`, returnOriginal false:
returns the mutated document and the mutated store. -/
def findOneAndUpdate (t : String) (now newProc : Int) (s : Store) : Option Doc × Store :=
  match selectMin (s.filter (eligibleB t now)) with
  | none => (none, s)
  | some d => (some (applySet newProc d), updateById d.id newProc s)

/-- MongoDB deleteOne { _id: i }: removes the first document with that id
and reports deletedCount. -/
def deleteOne (i : Nat) : Store → Nat × Store
  | [] => (0, [])
  | d :: ds =>
    if d.id = i then (1, ds)
    else
      let r := deleteOne i ds
      (r.1, d :: r.2)

/-- MongoDB deleteMany { type: t }: removes every document of the type and
reports deletedCount. -/
def deleteMany (t : String) (s : Store) : Nat × Store :=
  ((s.filter (fun d => d.type == t)).length, s.filter (fun d => d.type != t))

/-- MongoDB countDocuments { type: t }. -/
def countDocuments (t : String) (s : Store) : Nat :=
  (s.filter (fun d => d.type == t)).length

/-- Queue.send(data, delayUntil, maxTries) at time `now`, with the store
assigning the fresh ObjectId `fresh`: computes proc from delayUntil, sets
runs = maxTries || this.maxTries, inserts, and returns the qItem snapshot
{ _id, sent, runs, data }; an insert rejected by the collection validator
throws, is caught, and yields null (modelled as `none`). -/
def Queue.send (q : Queue) (data : Payload) (delayUntil : Delay) (maxTries : Option Int)
    (now : Int) (fresh : Nat) (s : Store) : Option QItem × Store :=
  let proc := procOf delayUntil now
  let runs := orDefault maxTries q.maxTries
  let d : Doc := { id := fresh, idTime := now, type := q.type, proc := proc,
                   runs := runs, data := data }
  if validDoc d then
    (some { id := fresh, sent := now, runs := runs, data := data }, s ++ [d])
  else
    (none, s)

/-- Effective processing time of receive:
`Math.max(1, processingTime || this.processingTime)`. -/
def effLease (arg : Option Int) (dflt : Int) : Int :=
  max 1 (orDefault arg dflt)

/-- Queue.remove(qItem): null when the reference is null or carries no
`_id`; otherwise deleteOne { _id } and return the deletedCount. -/
def Queue.remove (q : Queue) (ref : Option Nat) (s : Store) : Option Int × Store :=
  match ref with
  | none => (none, s)
  | some i =>
    let r := deleteOne i s
    (some (r.1 : Int), r.2)

/-- Queue.receive(processingTime) at time `now`: findOneAndUpdate the next
eligible document, pushing proc to now + effective processing time (in
milliseconds) and decrementing runs; null when nothing matched; when the
returned document has no runs left (`!v.runs`), this.remove deletes it
before the qItem is returned. -/
def Queue.receive (q : Queue) (processingTime : Option Int) (now : Int) (s : Store) :
    Option QItem × Store :=
  let pt := effLease processingTime q.processingTime
  match findOneAndUpdate q.type now (now + pt * 1000) s with
  | (none, s1) => (none, s1)
  | (some v, s1) =>
    let qItem : QItem := { id := v.id, sent := v.idTime, runs := v.runs, data := v.data }
    if v.runs = 0 then
      (some qItem, (q.remove (some qItem.id) s1).2)
    else
      (some qItem, s1)

/-- Queue.purge(): deleteMany { type: this.type }, returning deletedCount. -/
def Queue.purge (q : Queue) (s : Store) : Option Int × Store :=
  let r := deleteMany q.type s
  (some (r.1 : Int), r.2)

/-- Queue.count(): countDocuments { type: this.type }; reads only. -/
def Queue.count (q : Queue) (s : Store) : Option Int × Store :=
  (some (countDocuments q.type s : Int), s)

/-! Operation boundaries with a store fault injected: each method wraps its
store round trip in try/catch, logs, and returns null.  A failed store call
leaves the store unchanged. -/

/-- Queue.send under a store fault: the catch block returns null. -/
def Queue.sendF (fault : Bool) (q : Queue) (data : Payload) (delayUntil : Delay)
    (maxTries : Option Int) (now : Int) (fresh : Nat) (s : Store) : Option QItem × Store :=
  if fault then (none, s) else q.send data delayUntil maxTries now fresh s

/-- Queue.receive under a store fault: the catch block returns null. -/
def Queue.receiveF (fault : Bool) (q : Queue) (processingTime : Option Int) (now : Int)
    (s : Store) : Option QItem × Store :=
  if fault then (none, s) else q.receive processingTime now s

/-- Queue.remove under a store fault: the null-reference guard runs before
the try block; the catch block returns null. -/
def Queue.removeF (fault : Bool) (q : Queue) (ref : Option Nat) (s : Store) :
    Option Int × Store :=
  match ref with
  | none => (none, s)
  | some i => if fault then (none, s) else q.remove (some i) s

/-- Queue.purge under a store fault: the catch block returns null. -/
def Queue.purgeF (fault : Bool) (q : Queue) (s : Store) : Option Int × Store :=
  if fault then (none, s) else q.purge s

/-- Queue.count under a store fault: the catch block returns null. -/
def Queue.countF (fault : Bool) (q : Queue) (s : Store) : Option Int × Store :=
  if fault then (none, s) else q.count s

/-! Traces of fault-free operations against one shared store.  The store
assigns ObjectIds from a counter, so ids are unique and never reused. -/

/-- One public operation with its call-time arguments. -/
inductive Op where
  | send (q : Queue) (data : Payload) (delayUntil : Delay) (maxTries : Option Int) (now : Int)
  | receive (q : Queue) (processingTime : Option Int) (now : Int)
  | remove (q : Queue) (ref : Option Nat)
  | purge (q : Queue)
  | count (q : Queue)
  deriving Repr, DecidableEq

/-- The shared store together with the ObjectId counter. -/
structure Sys where
  store : Store
  nextId : Nat
  deriving Repr, DecidableEq

/-- Apply one operation to the system state. -/
def applyOp (σ : Sys) : Op → Sys
  | .send q data delayUntil maxTries now =>
    { store := (q.send data delayUntil maxTries now σ.nextId σ.store).2,
      nextId := σ.nextId + 1 }
  | .receive q processingTime now => { σ with store := (q.receive processingTime now σ.store).2 }
  | .remove q ref => { σ with store := (q.remove ref σ.store).2 }
  | .purge q => { σ with store := (q.purge σ.store).2 }
  | .count q => { σ with store := (q.count σ.store).2 }

/-- Run a list of operations in order. -/
def runOps (σ : Sys) : List Op → Sys
  | [] => σ
  | op :: ops => runOps (applyOp σ op) ops

/-- Well-formedness of the system: all stored ids were assigned below the
counter, and the unique `_id` index holds. -/
def Sys.wf (σ : Sys) : Prop :=
  (∀ d ∈ σ.store, d.id < σ.nextId) ∧ (σ.store.map Doc.id).Nodup

/-- Every stored item still has at least one run left. -/
def goodRuns (s : Store) : Prop :=
  ∀ d ∈ s, 1 ≤ d.runs

/-- Call-site assumption for the retry-bound invariant: a send is issued by
a queue instance whose configured default maxTries is at least 1 (the
constructor default is 3). -/
def okOp : Op → Prop
  | .send q _ _ _ _ => 1 ≤ q.maxTries
  | _ => True

/-! Helper lemmas about the store primitives. -/

theorem selectMin_eq_none {l : List Doc} : selectMin l = none ↔ l = [] := by
  constructor
  · intro h
    cases l with
    | nil => rfl
    | cons a m =>
      cases hm : selectMin m
      · simp [selectMin, hm] at h
      · simp only [selectMin, hm] at h
        split at h <;> simp_all
  · intro h
    subst h
    rfl

theorem selectMin_mem {l : List Doc} {d : Doc} (h : selectMin l = some d) : d ∈ l := by
  induction l with
  | nil => simp [selectMin] at h
  | cons a l ih =>
    cases hl : selectMin l with
    | none =>
      simp only [selectMin, hl, Option.some.injEq] at h
      subst h
      exact List.mem_cons_self a l
    | some e =>
      simp only [selectMin, hl] at h
      split at h <;> simp only [Option.some.injEq] at h <;> subst h
      · exact List.mem_cons_self a l
      · exact List.mem_cons_of_mem a (ih hl)

theorem selectMin_le {l : List Doc} {d : Doc} (h : selectMin l = some d) :
    ∀ e ∈ l, d.proc ≤ e.proc := by
  induction l generalizing d with
  | nil => simp [selectMin] at h
  | cons a l ih =>
    intro e he
    cases hl : selectMin l with
    | none =>
      simp only [selectMin, hl, Option.some.injEq] at h
      subst h
      have hnil : l = [] := selectMin_eq_none.mp hl
      subst hnil
      simp only [List.mem_singleton] at he
      subst he
      exact le_refl _
    | some f =>
      simp only [selectMin, hl] at h
      rcases List.mem_cons.mp he with rfl | he'
      · split at h <;> simp only [Option.some.injEq] at h <;> subst h
        · exact le_refl _
        · rename_i hp
          exact le_of_not_le hp
      · split at h <;> simp only [Option.some.injEq] at h <;> subst h
        · rename_i hp
          exact le_trans hp (ih hl e he')
        · exact ih hl e he'

theorem selectMin_mem_le {l : List Doc} {d : Doc} (h : selectMin l = some d) :
    d ∈ l ∧ ∀ e ∈ l, d.proc ≤ e.proc :=
  ⟨selectMin_mem h, selectMin_le h⟩

theorem nodup_ids_inj {s : Store} (hn : (s.map Doc.id).Nodup)
    {a b : Doc} (ha : a ∈ s) (hb : b ∈ s) (hid : a.id = b.id) : a = b := by
  induction s with
  | nil => cases ha
  | cons d ds ih =>
    simp only [List.map_cons, List.nodup_cons] at hn
    rcases List.mem_cons.mp ha with rfl | ha' <;> rcases List.mem_cons.mp hb with rfl | hb'
    · rfl
    · have : a.id ∈ ds.map Doc.id := hid ▸ List.mem_map_of_mem Doc.id hb'
      exact absurd this hn.1
    · have : b.id ∈ ds.map Doc.id := hid ▸ List.mem_map_of_mem Doc.id ha'
      exact absurd this hn.1
    · exact ih hn.2 ha' hb'

theorem applySet_id (p : Int) (d : Doc) : (applySet p d).id = d.id := rfl

theorem updateById_of_not_mem {i : Nat} {p : Int} {s : Store}
    (h : ∀ d ∈ s, d.id ≠ i) : updateById i p s = s := by
  induction s with
  | nil => rfl
  | cons d ds ih =>
    unfold updateById
    rw [if_neg (h d (List.mem_cons_self d ds))]
    rw [ih (fun e he => h e (List.mem_cons_of_mem d he))]

theorem map_id_updateById (i : Nat) (p : Int) (s : Store) :
    (updateById i p s).map Doc.id = s.map Doc.id := by
  induction s with
  | nil => rfl
  | cons d ds ih =>
    unfold updateById
    split
    · simp [applySet]
    · simp [ih]

theorem map_ite_of_not_mem {i : Nat} {p : Int} {s : Store}
    (h : ∀ e ∈ s, e.id ≠ i) :
    s.map (fun e => if e.id = i then applySet p e else e) = s := by
  induction s with
  | nil => rfl
  | cons d ds ih =>
    simp only [List.map_cons]
    rw [if_neg (h d (List.mem_cons_self d ds)),
      ih (fun e he => h e (List.mem_cons_of_mem d he))]

theorem updateById_eq_map {i : Nat} {p : Int} {s : Store}
    (hn : (s.map Doc.id).Nodup) :
    updateById i p s = s.map (fun e => if e.id = i then applySet p e else e) := by
  induction s with
  | nil => rfl
  | cons d ds ih =>
    simp only [List.map_cons, List.nodup_cons] at hn
    unfold updateById
    by_cases hd : d.id = i
    · rw [if_pos hd]
      simp only [List.map_cons, if_pos hd]
      rw [map_ite_of_not_mem]
      intro e he hei
      exact hn.1 (hd ▸ hei ▸ List.mem_map_of_mem Doc.id he)
    · rw [if_neg hd]
      simp only [List.map_cons, if_neg hd]
      rw [ih hn.2]

theorem mem_updateById {i : Nat} {p : Int} {s : Store} {e : Doc}
    (he : e ∈ updateById i p s) :
    e ∈ s ∨ ∃ d ∈ s, d.id = i ∧ e = applySet p d := by
  induction s with
  | nil => cases he
  | cons d ds ih =>
    unfold updateById at he
    split at he
    · rcases List.mem_cons.mp he with rfl | he'
      · exact Or.inr ⟨d, List.mem_cons_self d ds, by assumption, rfl⟩
      · exact Or.inl (List.mem_cons_of_mem d he')
    · rcases List.mem_cons.mp he with rfl | he'
      · exact Or.inl (List.mem_cons_self e ds)
      · rcases ih he' with h | ⟨f, hf, hfi, hfe⟩
        · exact Or.inl (List.mem_cons_of_mem d h)
        · exact Or.inr ⟨f, List.mem_cons_of_mem d hf, hfi, hfe⟩

theorem deleteOne_snd_sublist (i : Nat) (s : Store) : (deleteOne i s).2.Sublist s := by
  induction s with
  | nil => simp [deleteOne]
  | cons d ds ih =>
    unfold deleteOne
    by_cases hd : d.id = i
    · rw [if_pos hd]
      exact List.sublist_cons_self d ds
    · rw [if_neg hd]
      exact List.Sublist.cons₂ d ih

theorem deleteOne_fst (i : Nat) (s : Store) :
    (deleteOne i s).1 = if ∃ d ∈ s, d.id = i then 1 else 0 := by
  induction s with
  | nil => simp [deleteOne]
  | cons d ds ih =>
    unfold deleteOne
    by_cases hd : d.id = i
    · rw [if_pos hd, if_pos ⟨d, List.mem_cons_self d ds, hd⟩]
    · rw [if_neg hd]
      simp only [ih]
      by_cases hex : ∃ e ∈ ds, e.id = i
      · rcases hex with ⟨e, he, hei⟩
        rw [if_pos ⟨e, he, hei⟩, if_pos ⟨e, List.mem_cons_of_mem d he, hei⟩]
      · rw [if_neg hex, if_neg ?_]
        rintro ⟨e, he, hei⟩
        rcases List.mem_cons.mp he with rfl | he'
        · exact hd hei
        · exact hex ⟨e, he', hei⟩

theorem deleteOne_eq_filter {i : Nat} {s : Store} (hn : (s.map Doc.id).Nodup) :
    (deleteOne i s).2 = s.filter (fun d => d.id != i) := by
  induction s with
  | nil => rfl
  | cons d ds ih =>
    simp only [List.map_cons, List.nodup_cons] at hn
    unfold deleteOne
    by_cases hd : d.id = i
    · rw [if_pos hd]
      rw [List.filter_cons_of_neg]
      · symm
        rw [List.filter_eq_self]
        intro e he
        simp only [bne_iff_ne, ne_eq, decide_eq_true_eq]
        intro hei
        exact hn.1 (hd ▸ hei ▸ List.mem_map_of_mem Doc.id he)
      · simp [hd]
    · rw [if_neg hd]
      rw [List.filter_cons_of_pos]
      · simp only
        rw [ih hn.2]
      · simp [hd]

/-! Characterizations of receive in terms of the selected document. -/

theorem receive_of_selectMin_none {q : Queue} {pt : Option Int} {now : Int} {s : Store}
    (h : selectMin (s.filter (eligibleB q.type now)) = none) :
    q.receive pt now s = (none, s) := by
  simp only [Queue.receive, findOneAndUpdate, h]

theorem receive_of_selectMin_some {q : Queue} {pt : Option Int} {now : Int} {s : Store}
    {sel : Doc} (h : selectMin (s.filter (eligibleB q.type now)) = some sel) :
    q.receive pt now s =
      (some { id := sel.id, sent := sel.idTime, runs := sel.runs - 1, data := sel.data },
       if sel.runs - 1 = 0
       then (deleteOne sel.id
              (updateById sel.id (now + effLease pt q.processingTime * 1000) s)).2
       else updateById sel.id (now + effLease pt q.processingTime * 1000) s) := by
  simp only [Queue.receive, findOneAndUpdate, h, applySet, Queue.remove]
  split <;> rfl

theorem send_store_cases (q : Queue) (data : Payload) (delayUntil : Delay)
    (maxTries : Option Int) (now : Int) (fresh : Nat) (s : Store) :
    (q.send data delayUntil maxTries now fresh s).2 = s
    ∨ (q.send data delayUntil maxTries now fresh s).2 =
        s ++ [{ id := fresh, idTime := now, type := q.type, proc := procOf delayUntil now,
                runs := orDefault maxTries q.maxTries, data := data }] := by
  simp only [Queue.send]
  split
  · exact Or.inr rfl
  · exact Or.inl rfl

/-! Preservation of the well-formedness and retry invariants. -/

theorem wf_applyOp {σ : Sys} (hwf : σ.wf) (op : Op) : (applyOp σ op).wf := by
  obtain ⟨hlt, hnd⟩ := hwf
  cases op with
  | send q data delayUntil maxTries now =>
    simp only [applyOp, Queue.send]
    split
    · refine ⟨?_, ?_⟩
      · intro d hd
        simp only [List.mem_append, List.mem_singleton] at hd
        rcases hd with hd | rfl
        · exact Nat.lt_succ_of_lt (hlt d hd)
        · exact Nat.lt_succ_self _
      · rw [List.map_append, List.nodup_append]
        refine ⟨hnd, List.nodup_singleton _, ?_⟩
        intro a ha hb
        simp only [List.map_cons, List.map_nil, List.mem_singleton] at hb
        rcases List.mem_map.mp ha with ⟨e, he, hei⟩
        subst hb
        exact absurd (hei ▸ hlt e he) (lt_irrefl _)
    · refine ⟨?_, hnd⟩
      intro d hd
      exact Nat.lt_succ_of_lt (hlt d hd)
  | receive q pt now =>
    simp only [applyOp]
    cases hsel : selectMin (σ.store.filter (eligibleB q.type now)) with
    | none =>
      rw [receive_of_selectMin_none hsel]
      exact ⟨hlt, hnd⟩
    | some sel =>
      rw [receive_of_selectMin_some hsel]
      have hids : (updateById sel.id (now + effLease pt q.processingTime * 1000)
          σ.store).map Doc.id = σ.store.map Doc.id := map_id_updateById _ _ _
      have hmem1 : ∀ d ∈ updateById sel.id (now + effLease pt q.processingTime * 1000)
          σ.store, d.id < σ.nextId := by
        intro d hd
        have hdm : d.id ∈ σ.store.map Doc.id := hids ▸ List.mem_map_of_mem Doc.id hd
        rcases List.mem_map.mp hdm with ⟨e, he, hei⟩
        exact hei ▸ hlt e he
      have hnd1 : ((updateById sel.id (now + effLease pt q.processingTime * 1000)
          σ.store).map Doc.id).Nodup := hids ▸ hnd
      split
      · refine ⟨?_, ?_⟩
        · intro d hd
          exact hmem1 d ((deleteOne_snd_sublist _ _).subset hd)
        · exact List.Nodup.sublist ((deleteOne_snd_sublist _ _).map Doc.id) hnd1
      · exact ⟨hmem1, hnd1⟩
  | remove q ref =>
    cases ref with
    | none =>
      simp only [applyOp, Queue.remove]
      exact ⟨hlt, hnd⟩
    | some i =>
      simp only [applyOp, Queue.remove]
      refine ⟨?_, ?_⟩
      · intro d hd
        exact hlt d ((deleteOne_snd_sublist _ _).subset hd)
      · exact List.Nodup.sublist ((deleteOne_snd_sublist _ _).map Doc.id) hnd
  | purge q =>
    simp only [applyOp, Queue.purge, deleteMany]
    refine ⟨?_, ?_⟩
    · intro d hd
      exact hlt d (List.mem_of_mem_filter hd)
    · exact List.Nodup.sublist ((List.filter_sublist _).map Doc.id) hnd
  | count q =>
    simp only [applyOp, Queue.count]
    exact ⟨hlt, hnd⟩

theorem wf_runOps {σ : Sys} (hwf : σ.wf) (ops : List Op) : (runOps σ ops).wf := by
  induction ops generalizing σ with
  | nil => exact hwf
  | cons op ops ih => exact ih (wf_applyOp hwf op)

theorem orDefault_pos {mt : Option Int} {dflt : Int} (hd : 1 ≤ dflt)
    (hv : 0 ≤ orDefault mt dflt) : 1 ≤ orDefault mt dflt := by
  cases mt with
  | none => simpa [orDefault] using hd
  | some n =>
    by_cases h0 : n = 0
    · simpa [orDefault, h0] using hd
    · simp only [orDefault, if_neg h0] at hv ⊢
      omega

theorem one_le_effLease (arg : Option Int) (dflt : Int) : 1 ≤ effLease arg dflt :=
  le_max_left 1 _

theorem eligibleB_iff {t : String} {now : Int} {d : Doc} :
    eligibleB t now d = true ↔ d.type = t ∧ d.proc < now := by
  simp [eligibleB]

theorem goodRuns_applyOp {σ : Sys} (hwf : σ.wf) (hg : goodRuns σ.store) {op : Op}
    (hok : okOp op) : goodRuns (applyOp σ op).store := by
  cases op with
  | send q data delayUntil maxTries now =>
    simp only [applyOp, Queue.send]
    split
    · rename_i hv
      intro d hd
      simp only [List.mem_append, List.mem_singleton] at hd
      rcases hd with hd | rfl
      · exact hg d hd
      · exact orDefault_pos hok hv.2
    · exact hg
  | receive q pt now =>
    simp only [applyOp]
    cases hsel : selectMin (σ.store.filter (eligibleB q.type now)) with
    | none =>
      rw [receive_of_selectMin_none hsel]
      exact hg
    | some sel =>
      rw [receive_of_selectMin_some hsel]
      have hselmem : sel ∈ σ.store := List.mem_of_mem_filter (selectMin_mem hsel)
      have hsr : 1 ≤ sel.runs := hg sel hselmem
      have hselid : ∀ d0 ∈ σ.store, d0.id = sel.id → d0 = sel := by
        intro d0 hd0 hi
        exact nodup_ids_inj hwf.2 hd0 hselmem hi
      have hnd1 : ((updateById sel.id (now + effLease pt q.processingTime * 1000)
          σ.store).map Doc.id).Nodup := by
        rw [map_id_updateById]
        exact hwf.2
      split
      · rename_i hz
        rw [deleteOne_eq_filter hnd1]
        intro e he
        have hin := List.mem_of_mem_filter he
        have hne : e.id ≠ sel.id := by
          have := List.of_mem_filter he
          simpa using this
        rcases mem_updateById hin with he' | ⟨d0, hd0, hd0i, hde⟩
        · exact hg e he'
        · exfalso
          apply hne
          rw [hde]
          exact hd0i
      · rename_i hz
        intro e he
        rcases mem_updateById he with he' | ⟨d0, hd0, hd0i, hde⟩
        · exact hg e he'
        · have hd0sel : d0 = sel := hselid d0 hd0 hd0i
          subst hd0sel
          subst hde
          simp only [applySet]
          omega
  | remove q ref =>
    cases ref with
    | none =>
      simp only [applyOp, Queue.remove]
      exact hg
    | some i =>
      simp only [applyOp, Queue.remove]
      intro d hd
      exact hg d ((deleteOne_snd_sublist _ _).subset hd)
  | purge q =>
    simp only [applyOp, Queue.purge, deleteMany]
    intro d hd
    exact hg d (List.mem_of_mem_filter hd)
  | count q =>
    simp only [applyOp, Queue.count]
    exact hg

theorem goodRuns_runOps {σ : Sys} (hwf : σ.wf) (hg : goodRuns σ.store) {ops : List Op}
    (hok : ∀ op ∈ ops, okOp op) : goodRuns (runOps σ ops).store := by
  induction ops generalizing σ with
  | nil => exact hg
  | cons op ops ih =>
    exact ih (wf_applyOp hwf op)
      (goodRuns_applyOp hwf hg (hok op (List.mem_cons_self op ops)))
      (fun o ho => hok o (List.mem_cons_of_mem op ho))

/-! Tracking of ids and visibility times across operations. -/

theorem nextId_le_applyOp (σ : Sys) (op : Op) : σ.nextId ≤ (applyOp σ op).nextId := by
  cases op <;> simp only [applyOp] <;> omega

theorem mem_store_applyOp {σ : Sys} (op : Op) {d' : Doc}
    (hd' : d' ∈ (applyOp σ op).store) :
    (∃ e ∈ σ.store, e.id = d'.id) ∨ σ.nextId ≤ d'.id := by
  cases op with
  | send q data delayUntil maxTries now =>
    simp only [applyOp] at hd'
    rcases send_store_cases q data delayUntil maxTries now σ.nextId σ.store with hs | hs <;>
      rw [hs] at hd'
    · exact Or.inl ⟨d', hd', rfl⟩
    · rcases List.mem_append.mp hd' with h | h
      · exact Or.inl ⟨d', h, rfl⟩
      · simp only [List.mem_singleton] at h
        subst h
        exact Or.inr (le_refl _)
  | receive q pt now =>
    simp only [applyOp] at hd'
    cases hsel : selectMin (σ.store.filter (eligibleB q.type now)) with
    | none =>
      rw [receive_of_selectMin_none hsel] at hd'
      exact Or.inl ⟨d', hd', rfl⟩
    | some sel =>
      rw [receive_of_selectMin_some hsel] at hd'
      simp only at hd'
      have hin : d' ∈ updateById sel.id (now + effLease pt q.processingTime * 1000)
          σ.store := by
        split at hd'
        · exact (deleteOne_snd_sublist _ _).subset hd'
        · exact hd'
      rcases mem_updateById hin with h | ⟨d0, hd0, _, hde⟩
      · exact Or.inl ⟨d', h, rfl⟩
      · refine Or.inl ⟨d0, hd0, ?_⟩
        rw [hde]
        rfl
  | remove q ref =>
    cases ref with
    | none =>
      simp only [applyOp, Queue.remove] at hd'
      exact Or.inl ⟨d', hd', rfl⟩
    | some i =>
      simp only [applyOp, Queue.remove] at hd'
      exact Or.inl ⟨d', (deleteOne_snd_sublist _ _).subset hd', rfl⟩
  | purge q =>
    simp only [applyOp, Queue.purge, deleteMany] at hd'
    exact Or.inl ⟨d', List.mem_of_mem_filter hd', rfl⟩
  | count q =>
    simp only [applyOp, Queue.count] at hd'
    exact Or.inl ⟨d', hd', rfl⟩

theorem mem_store_runOps {σ : Sys} {ops : List Op} {d' : Doc}
    (hd' : d' ∈ (runOps σ ops).store) :
    (∃ e ∈ σ.store, e.id = d'.id) ∨ σ.nextId ≤ d'.id := by
  induction ops generalizing σ with
  | nil => exact Or.inl ⟨d', hd', rfl⟩
  | cons op ops ih =>
    simp only [runOps] at hd'
    rcases ih hd' with ⟨e, he, hei⟩ | hle
    · rcases mem_store_applyOp op he with ⟨f, hf, hfi⟩ | hle'
      · exact Or.inl ⟨f, hf, by rw [hfi, hei]⟩
      · exact Or.inr (hei ▸ le_trans hle' (le_of_eq rfl))
    · exact Or.inr (le_trans (nextId_le_applyOp σ op) hle)

theorem proc_mono_applyOp {σ : Sys} (hwf : σ.wf) (op : Op) {d d' : Doc}
    (hd : d ∈ σ.store) (hd' : d' ∈ (applyOp σ op).store) (hid : d'.id = d.id) :
    d.proc ≤ d'.proc := by
  cases op with
  | send q data delayUntil maxTries now =>
    simp only [applyOp] at hd'
    rcases send_store_cases q data delayUntil maxTries now σ.nextId σ.store with hs | hs <;>
      rw [hs] at hd'
    · exact le_of_eq (congrArg Doc.proc (nodup_ids_inj hwf.2 hd hd' hid.symm))
    · rcases List.mem_append.mp hd' with h | h
      · exact le_of_eq (congrArg Doc.proc (nodup_ids_inj hwf.2 hd h hid.symm))
      · exfalso
        simp only [List.mem_singleton] at h
        subst h
        have := hwf.1 d hd
        simp only at hid
        omega
  | receive q pt now =>
    simp only [applyOp] at hd'
    cases hsel : selectMin (σ.store.filter (eligibleB q.type now)) with
    | none =>
      rw [receive_of_selectMin_none hsel] at hd'
      exact le_of_eq (congrArg Doc.proc (nodup_ids_inj hwf.2 hd hd' hid.symm))
    | some sel =>
      rw [receive_of_selectMin_some hsel] at hd'
      simp only at hd'
      have hin : d' ∈ updateById sel.id (now + effLease pt q.processingTime * 1000)
          σ.store := by
        split at hd'
        · exact (deleteOne_snd_sublist _ _).subset hd'
        · exact hd'
      rcases mem_updateById hin with h | ⟨d0, hd0, hd0i, hde⟩
      · exact le_of_eq (congrArg Doc.proc (nodup_ids_inj hwf.2 hd h hid.symm))
      · have hselmem : sel ∈ σ.store := List.mem_of_mem_filter (selectMin_mem hsel)
        have hd0d : d0 = d := by
          apply nodup_ids_inj hwf.2 hd0 hd
          rw [← hid, hde]
          rfl
        have hd0sel : d0 = sel := nodup_ids_inj hwf.2 hd0 hselmem hd0i
        have hproc : d.proc < now := by
          have := List.of_mem_filter (selectMin_mem hsel)
          rw [eligibleB_iff] at this
          rw [← hd0d, hd0sel]
          exact (eligibleB_iff.mp (List.of_mem_filter (selectMin_mem hsel))).2
        have hlease : (1 : Int) * 1000 ≤ effLease pt q.processingTime * 1000 :=
          mul_le_mul_of_nonneg_right (one_le_effLease pt q.processingTime) (by norm_num)
        have hdeproc : d'.proc = now + effLease pt q.processingTime * 1000 := by
          rw [hde]
          rfl
        rw [hdeproc]
        linarith
  | remove q ref =>
    cases ref with
    | none =>
      simp only [applyOp, Queue.remove] at hd'
      exact le_of_eq (congrArg Doc.proc (nodup_ids_inj hwf.2 hd hd' hid.symm))
    | some i =>
      simp only [applyOp, Queue.remove] at hd'
      exact le_of_eq (congrArg Doc.proc
        (nodup_ids_inj hwf.2 hd ((deleteOne_snd_sublist _ _).subset hd') hid.symm))
  | purge q =>
    simp only [applyOp, Queue.purge, deleteMany] at hd'
    exact le_of_eq (congrArg Doc.proc
      (nodup_ids_inj hwf.2 hd (List.mem_of_mem_filter hd') hid.symm))
  | count q =>
    simp only [applyOp, Queue.count] at hd'
    exact le_of_eq (congrArg Doc.proc (nodup_ids_inj hwf.2 hd hd' hid.symm))

theorem proc_mono_runOps {σ : Sys} (hwf : σ.wf) {ops : List Op} {d d' : Doc}
    (hd : d ∈ σ.store) (hd' : d' ∈ (runOps σ ops).store) (hid : d'.id = d.id) :
    d.proc ≤ d'.proc := by
  induction ops generalizing σ d with
  | nil =>
    exact le_of_eq (congrArg Doc.proc (nodup_ids_inj hwf.2 hd hd' hid.symm))
  | cons op ops ih =>
    simp only [runOps] at hd'
    rcases mem_store_runOps hd' with ⟨e, he, hei⟩ | hle
    · have h1 : d.proc ≤ e.proc := proc_mono_applyOp hwf op hd he (by rw [hei, hid])
      have h2 : e.proc ≤ d'.proc := ih (wf_applyOp hwf op) he hd' hei.symm
      exact le_trans h1 h2
    · exfalso
      have h1 : d.id < σ.nextId := hwf.1 d hd
      have h2 : σ.nextId ≤ (applyOp σ op).nextId := nextId_le_applyOp σ op
      omega

/-! The claims. -/

/-- C1: Claim (Queue.receive) at time now performs one atomic conditional
mutation: among stored items of this queue's type that are eligible by
visibility time, it selects one with the smallest visibleAt; the mutation sets
that item's visibleAt to now plus the effective lease (in milliseconds) and
decrements its remainingAttempts by 1; and the value returned to the caller is
the item's state after the mutation, so the returned remainingAttempts is the
already-decremented count. -/
theorem C1_claim_atomic_conditional_mutation
    (q : Queue) (pt : Option Int) (now : Int) (s : Store) (sel : Doc)
    (hn : (s.map Doc.id).Nodup)
    (hsel : selectMin (s.filter (eligibleB q.type now)) = some sel) :
    sel ∈ s
    ∧ eligibleB q.type now sel = true
    ∧ (∀ d ∈ s, eligibleB q.type now d = true → sel.proc ≤ d.proc)
    ∧ (findOneAndUpdate q.type now (now + effLease pt q.processingTime * 1000) s).2
        = s.map (fun e => if e.id = sel.id
            then { e with
                    proc := now + effLease pt q.processingTime * 1000,
                    runs := e.runs - 1 }
            else e)
    ∧ (q.receive pt now s).1
        = some { id := sel.id, sent := sel.idTime, runs := sel.runs - 1,
                 data := sel.data } := by
  refine ⟨List.mem_of_mem_filter (selectMin_mem hsel),
    List.of_mem_filter (selectMin_mem hsel), ?_, ?_, ?_⟩
  · intro d hd he
    exact selectMin_le hsel d (List.mem_filter.mpr ⟨hd, he⟩)
  · unfold findOneAndUpdate
    rw [hsel]
    simp only
    rw [updateById_eq_map hn]
    rfl
  · rw [receive_of_selectMin_some hsel]

/-- Witness for C1: a one-item store, claimed with the constructor
defaults. -/
theorem C1_claim_atomic_conditional_mutation_witness :
    ((Queue.make "DEFAULT").receive none 1000
      [{ id := 1, idTime := 5, type := "DEFAULT", proc := 900, runs := 3, data := 7 }]).1
      = some { id := 1, sent := 5, runs := 2, data := 7 } := by
  have h := C1_claim_atomic_conditional_mutation (Queue.make "DEFAULT") none 1000
    [{ id := 1, idTime := 5, type := "DEFAULT", proc := 900, runs := 3, data := 7 }]
    { id := 1, idTime := 5, type := "DEFAULT", proc := 900, runs := 3, data := 7 }
    (by decide) (by decide)
  exact h.2.2.2.2

/-- C2: a Claim whose mutation makes the selected item's remainingAttempts
reach 0 deletes the item from the store before the claim returns its result;
consequently, from a well-formed state whose items all have a run left, after
any sequence of operations whose sends are issued with a positive configured
default, no stored item has remainingAttempts 0 and none is negative. -/
theorem C2_bounded_retries_invariant
    (q : Queue) (pt : Option Int) (now : Int) (s : Store)
    (σ : Sys) (ops : List Op)
    (hn : (s.map Doc.id).Nodup)
    (hwf : σ.wf) (hg : goodRuns σ.store) (hok : ∀ op ∈ ops, okOp op) :
    (∀ item, (q.receive pt now s).1 = some item → item.runs = 0 →
      ∀ d ∈ (q.receive pt now s).2, d.id ≠ item.id)
    ∧ (∀ d ∈ (runOps σ ops).store, d.runs ≠ 0 ∧ 0 ≤ d.runs) := by
  constructor
  · intro item hit hz d hd
    cases hsel : selectMin (s.filter (eligibleB q.type now)) with
    | none =>
      rw [receive_of_selectMin_none hsel] at hit
      exact absurd hit (by simp)
    | some sel =>
      rw [receive_of_selectMin_some hsel] at hit hd
      simp only [Option.some.injEq] at hit
      subst hit
      have hz' : sel.runs - 1 = 0 := hz
      simp only at hd
      rw [if_pos hz'] at hd
      have hn1 : ((updateById sel.id (now + effLease pt q.processingTime * 1000)
          s).map Doc.id).Nodup := by
        rw [map_id_updateById]
        exact hn
      rw [deleteOne_eq_filter hn1] at hd
      have hne := List.of_mem_filter hd
      simp only [bne_iff_ne, ne_eq, decide_eq_true_eq] at hne
      exact hne
  · intro d hd
    have := goodRuns_runOps hwf hg hok d hd
    omega

/-- Witness for C2: a store holding an item with one run left next to a future
item; the claim returns runs 0 and the exhausted item is gone, while the other
item remains. -/
theorem C2_bounded_retries_invariant_witness :
    ((Queue.make "DEFAULT").receive none 1000
      [{ id := 1, idTime := 0, type := "DEFAULT", proc := 0, runs := 1, data := 9 },
       { id := 2, idTime := 0, type := "DEFAULT", proc := 5000, runs := 3, data := 8 }]).1
      = some { id := 1, sent := 0, runs := 0, data := 9 }
    ∧ ({ id := 2, idTime := 0, type := "DEFAULT", proc := 5000, runs := 3,
         data := 8 } : Doc)
        ∈ ((Queue.make "DEFAULT").receive none 1000
          [{ id := 1, idTime := 0, type := "DEFAULT", proc := 0, runs := 1, data := 9 },
           { id := 2, idTime := 0, type := "DEFAULT", proc := 5000, runs := 3,
             data := 8 }]).2
    ∧ (2 : Nat) ≠ 1 := by
  have h := C2_bounded_retries_invariant (Queue.make "DEFAULT") none 1000
    [{ id := 1, idTime := 0, type := "DEFAULT", proc := 0, runs := 1, data := 9 },
     { id := 2, idTime := 0, type := "DEFAULT", proc := 5000, runs := 3, data := 8 }]
    { store := [], nextId := 0 } []
    (by decide) ⟨(by intro d hd; cases hd), List.nodup_nil⟩
    (by intro d hd; cases hd) (by intro op hop; cases hop)
  refine ⟨by decide, by decide, ?_⟩
  exact h.1 { id := 1, sent := 0, runs := 0, data := 9 } (by decide) (by decide)
    { id := 2, idTime := 0, type := "DEFAULT", proc := 5000, runs := 3, data := 8 }
    (by decide)

/-- C3 counterexample: the claim says an item whose visibleAt equals the call
time is eligible; but on a store whose only item of the queue's type has
visibleAt = now, receive returns the empty result: the filter is the strict
proc < now. -/
theorem C3_visibility_equality_counterexample :
    ((Queue.make "DEFAULT").receive none 1000
      [{ id := 1, idTime := 0, type := "DEFAULT", proc := 1000, runs := 3, data := 0 }]).1
      = none
    ∧ ((1000 : Int) ≤ 1000) := by
  exact ⟨by decide, le_refl _⟩

/-- C3 amended: a stored item of this queue's type is eligible for selection
iff its visibleAt is strictly before the call time; Claim returns an item only
if its stored visibleAt satisfied visibleAt < now, and returns an item whenever
some item of the type does. -/
theorem C3_strict_visibility
    (q : Queue) (pt : Option Int) (now : Int) (s : Store) :
    (∀ d, eligibleB q.type now d = true ↔ (d.type = q.type ∧ d.proc < now))
    ∧ (∀ item, (q.receive pt now s).1 = some item →
      ∃ d ∈ s, d.id = item.id ∧ d.type = q.type ∧ d.proc < now)
    ∧ ((∃ d ∈ s, d.type = q.type ∧ d.proc < now) →
      (q.receive pt now s).1 ≠ none) := by
  refine ⟨fun d => eligibleB_iff, ?_, ?_⟩
  · intro item hit
    cases hsel : selectMin (s.filter (eligibleB q.type now)) with
    | none =>
      rw [receive_of_selectMin_none hsel] at hit
      exact absurd hit (by simp)
    | some sel =>
      rw [receive_of_selectMin_some hsel] at hit
      simp only [Option.some.injEq] at hit
      subst hit
      have hm := selectMin_mem hsel
      have he := eligibleB_iff.mp (List.of_mem_filter hm)
      exact ⟨sel, List.mem_of_mem_filter hm, rfl, he.1, he.2⟩
  · rintro ⟨d, hd, hty, hproc⟩
    cases hsel : selectMin (s.filter (eligibleB q.type now)) with
    | none =>
      exfalso
      have : s.filter (eligibleB q.type now) = [] := selectMin_eq_none.mp hsel
      have hdf : d ∈ s.filter (eligibleB q.type now) :=
        List.mem_filter.mpr ⟨hd, eligibleB_iff.mpr ⟨hty, hproc⟩⟩
      rw [this] at hdf
      cases hdf
    | some sel =>
      rw [receive_of_selectMin_some hsel]
      simp

/-- Witness for C3 amended: a store with one already-visible item yields a
non-empty claim. -/
theorem C3_strict_visibility_witness :
    ((Queue.make "DEFAULT").receive none 1000
      [{ id := 1, idTime := 0, type := "DEFAULT", proc := 999, runs := 3, data := 0 }]).1
      ≠ none := by
  exact (C3_strict_visibility (Queue.make "DEFAULT") none 1000
    [{ id := 1, idTime := 0, type := "DEFAULT", proc := 999, runs := 3, data := 0 }]).2.2
    ⟨{ id := 1, idTime := 0, type := "DEFAULT", proc := 999, runs := 3, data := 0 },
      by decide, by decide, by decide⟩

/-- C4: an item's visibleAt is non-decreasing over its lifetime: from any
well-formed state, a document observed with the same id after any sequence of
operations never has an earlier visibleAt; moreover the claim mutation
strictly increases the selected item's visibleAt, since the item was
selectable only with visibleAt strictly before now and the effective lease is
at least one second. -/
theorem C4_visibleAt_nondecreasing
    (σ : Sys) (ops : List Op) (hwf : σ.wf) :
    (∀ d ∈ σ.store, ∀ d' ∈ (runOps σ ops).store, d'.id = d.id → d.proc ≤ d'.proc)
    ∧ (∀ (q : Queue) (pt : Option Int) (now : Int) (sel : Doc),
        selectMin (σ.store.filter (eligibleB q.type now)) = some sel →
        sel.proc < now + effLease pt q.processingTime * 1000) := by
  constructor
  · intro d hd d' hd' hid
    exact proc_mono_runOps hwf hd hd' hid
  · intro q pt now sel hsel
    have h1 : sel.proc < now := (eligibleB_iff.mp (List.of_mem_filter (selectMin_mem hsel))).2
    have h2 : (1 : Int) * 1000 ≤ effLease pt q.processingTime * 1000 :=
      mul_le_mul_of_nonneg_right (one_le_effLease pt q.processingTime) (by norm_num)
    linarith

/-- Witness for C4: the surviving copy of a claimed item has its visibleAt
pushed forward, never back. -/
theorem C4_visibleAt_nondecreasing_witness :
    ({ id := 1, idTime := 0, type := "DEFAULT", proc := 301000, runs := 2, data := 0 } : Doc)
      ∈ (runOps
          { store := [{ id := 1, idTime := 0, type := "DEFAULT", proc := 0, runs := 3, data := 0 }], nextId := 2 }
          [Op.receive (Queue.make "DEFAULT") none 1000]).store
    ∧ (0 : Int) ≤ 301000 := by
  refine ⟨by decide, ?_⟩
  exact (C4_visibleAt_nondecreasing
    { store := [{ id := 1, idTime := 0, type := "DEFAULT", proc := 0, runs := 3, data := 0 }], nextId := 2 }
    [Op.receive (Queue.make "DEFAULT") none 1000]
    ⟨(by decide), (by decide)⟩).1
    { id := 1, idTime := 0, type := "DEFAULT", proc := 0, runs := 3, data := 0 }
    (by decide)
    { id := 1, idTime := 0, type := "DEFAULT", proc := 301000, runs := 2, data := 0 }
    (by decide) (by decide)

/-- C5 counterexample: under a store fault Acknowledge returns the null
sentinel while its NotFound case (id not present) returns a deleted count of
0; the two return values differ, so the caller can tell a fault from the
empty case for Acknowledge. -/
theorem C5_same_sentinel_counterexample :
    (Queue.removeF true (Queue.make "DEFAULT") (some 1) []).1 = none
    ∧ (Queue.removeF false (Queue.make "DEFAULT") (some 1) []).1 = some 0
    ∧ (none : Option Int) ≠ some 0 :=
  ⟨by decide, by decide, by decide⟩

/-- C5 amended: every operation catches a store fault, logs it, leaves the
store unchanged and returns the null sentinel instead of raising; for Enqueue
and Claim this null coincides with the empty-case result, but Acknowledge
(with a valid reference), Purge and Count return a numeric count on the
fault-free path (0 in the empty case), which differs from the null fault
sentinel. -/
theorem C5_fault_to_null_sentinel
    (q : Queue) (data : Payload) (delayUntil : Delay) (maxTries : Option Int)
    (now : Int) (fresh : Nat) (pt : Option Int) (ref : Option Nat) (i : Nat) (s : Store) :
    Queue.sendF true q data delayUntil maxTries now fresh s = (none, s)
    ∧ Queue.receiveF true q pt now s = (none, s)
    ∧ Queue.removeF true q ref s = (none, s)
    ∧ Queue.purgeF true q s = (none, s)
    ∧ Queue.countF true q s = (none, s)
    ∧ (s.filter (eligibleB q.type now) = [] →
        (Queue.receiveF false q pt now s).1 = none)
    ∧ ((∀ d ∈ s, d.id ≠ i) → (Queue.removeF false q (some i) s).1 = some 0)
    ∧ (∃ n : Int, (Queue.purgeF false q s).1 = some n)
    ∧ (∃ n : Int, (Queue.countF false q s).1 = some n) := by
  refine ⟨rfl, rfl, by cases ref <;> rfl, rfl, rfl, ?_, ?_, ⟨_, rfl⟩, ⟨_, rfl⟩⟩
  · intro h
    show (q.receive pt now s).1 = none
    rw [receive_of_selectMin_none (selectMin_eq_none.mpr h)]
  · intro h
    show (q.remove (some i) s).1 = some 0
    show some ((deleteOne i s).1 : Int) = some 0
    rw [deleteOne_fst, if_neg]
    · simp
    · rintro ⟨d, hd, he⟩
      exact h d hd he

/-- Witness for C5 amended at a concrete store and arguments. -/
theorem C5_fault_to_null_sentinel_witness :
    (Queue.receiveF false (Queue.make "DEFAULT") none 1000
      [{ id := 1, idTime := 0, type := "other", proc := 0, runs := 3, data := 0 }]).1
      = none
    ∧ (Queue.removeF false (Queue.make "DEFAULT") (some 2)
      [{ id := 1, idTime := 0, type := "other", proc := 0, runs := 3, data := 0 }]).1
      = some 0 := by
  have h := C5_fault_to_null_sentinel (Queue.make "DEFAULT") 0 Delay.absent none
    1000 4 none none 2
    [{ id := 1, idTime := 0, type := "other", proc := 0, runs := 3, data := 0 }]
  exact ⟨h.2.2.2.2.2.1 (by decide), h.2.2.2.2.2.2.1 (by decide)⟩

/-- C6: Acknowledge with a reference carrying an id deletes exactly the
document with that id and returns the count of deleted documents, 0 or 1; it
is idempotent: after a first call has deleted the document, a second call with
the same reference returns 0 rather than an error. -/
theorem C6_acknowledge_idempotent
    (q : Queue) (i : Nat) (s : Store) (hn : (s.map Doc.id).Nodup) :
    (q.remove (some i) s).2 = s.filter (fun d => d.id != i)
    ∧ (q.remove (some i) s).1 = some (if ∃ d ∈ s, d.id = i then (1 : Int) else 0)
    ∧ ((q.remove (some i) s).1 = some 0 ∨ (q.remove (some i) s).1 = some 1)
    ∧ (q.remove (some i) (q.remove (some i) s).2).1 = some 0 := by
  have h2 : (q.remove (some i) s).2 = s.filter (fun d => d.id != i) := by
    simp only [Queue.remove]
    exact deleteOne_eq_filter hn
  have h1 : (q.remove (some i) s).1 = some ((deleteOne i s).1 : Int) := rfl
  refine ⟨h2, ?_, ?_, ?_⟩
  · rw [h1, deleteOne_fst]
    split <;> simp
  · rw [h1, deleteOne_fst]
    split <;> simp
  · rw [h2]
    show some ((deleteOne i (s.filter (fun d => d.id != i))).1 : Int) = some 0
    rw [deleteOne_fst, if_neg]
    · simp
    · rintro ⟨d, hd, he⟩
      have hmem := List.of_mem_filter hd
      simp only [bne_iff_ne, ne_eq, decide_eq_true_eq] at hmem
      exact hmem he

/-- Witness for C6: deleting a present item returns 1; deleting it again
returns 0. -/
theorem C6_acknowledge_idempotent_witness :
    ((Queue.make "DEFAULT").remove (some 1)
      [{ id := 1, idTime := 0, type := "DEFAULT", proc := 0, runs := 3, data := 0 }]).1
      = some 1
    ∧ ((Queue.make "DEFAULT").remove (some 1)
        (((Queue.make "DEFAULT").remove (some 1)
          [{ id := 1, idTime := 0, type := "DEFAULT", proc := 0, runs := 3,
             data := 0 }]).2)).1
      = some 0 := by
  have h := C6_acknowledge_idempotent (Queue.make "DEFAULT") 1
    [{ id := 1, idTime := 0, type := "DEFAULT", proc := 0, runs := 3, data := 0 }]
    (by decide)
  refine ⟨?_, h.2.2.2⟩
  rw [h.2.1, if_pos]
  exact ⟨{ id := 1, idTime := 0, type := "DEFAULT", proc := 0, runs := 3, data := 0 },
    by decide, rfl⟩

/-- C7: Enqueue (Queue.send) computes the stored visibleAt from the delay
argument, an absolute Date winning over a relative number of seconds and an
absent delay meaning immediately visible; it inserts the item with
remainingAttempts equal to the effective maxTries value; on success it
returns the snapshot of the inserted item, and under a store fault it returns
the null failure sentinel with the store unchanged. -/
theorem C7_enqueue_behavior
    (q : Queue) (data : Payload) (maxTries : Option Int)
    (now tabs nsec : Int) (fresh : Nat) (s : Store)
    (hty : q.type ≠ "") (hruns : 0 ≤ orDefault maxTries q.maxTries) :
    procOf (Delay.date tabs) now = tabs
    ∧ procOf (Delay.secs nsec) now = now + nsec * 1000
    ∧ procOf Delay.absent now = now
    ∧ (∀ delayUntil, q.send data delayUntil maxTries now fresh s =
        (some { id := fresh, sent := now, runs := orDefault maxTries q.maxTries, data := data },
         s ++ [{ id := fresh, idTime := now, type := q.type, proc := procOf delayUntil now, runs := orDefault maxTries q.maxTries, data := data }]))
    ∧ (∀ delayUntil, Queue.sendF true q data delayUntil maxTries now fresh s = (none, s)) := by
  refine ⟨rfl, rfl, rfl, ?_, fun _ => rfl⟩
  intro delayUntil
  simp only [Queue.send]
  split
  · rfl
  · rename_i hv
    exact absurd ⟨hty, hruns⟩ hv

/-- Witness for C7: enqueue with an absolute date and the constructor
defaults. -/
theorem C7_enqueue_behavior_witness :
    (Queue.make "Q").send 9 (Delay.date 5000) none 1000 4 []
      = (some { id := 4, sent := 1000, runs := 3, data := 9 },
         [{ id := 4, idTime := 1000, type := "Q", proc := 5000, runs := 3, data := 9 }]) := by
  have h := C7_enqueue_behavior (Queue.make "Q") 9 none 1000 0 0 4 [] (by decide) (by decide)
  exact h.2.2.2.1 (Delay.date 5000)

/-- C8 counterexample: with the constructor default processing time of 300
seconds, a Claim called with leaseSeconds 0 pushes the item's visibleAt by the
300-second default rather than by the clamped supplied value max 1 0 = 1: a
supplied 0 is falsy and is replaced by the default, so the effective lease is
not the given argument clamped to 1. -/
theorem C8_lease_zero_counterexample :
    ((Queue.make "DEFAULT").receive (some 0) 1000
      [{ id := 1, idTime := 0, type := "DEFAULT", proc := 0, runs := 3, data := 0 }]).2
      = [{ id := 1, idTime := 0, type := "DEFAULT", proc := 1000 + 300 * 1000, runs := 2, data := 0 }]
    ∧ effLease (some 0) 300 = 300
    ∧ (300 : Int) ≠ max 1 0 :=
  ⟨by decide, by decide, by decide⟩

/-- C8 amended: the lease receive uses is Math.max(1, leaseSeconds or the
configured processing time): an absent or zero (falsy) leaseSeconds falls back
to the queue's configured processing time, a nonzero supplied value is used as
given, and the result is clamped to a minimum of 1 second, so the effective
lease is always at least 1 second. -/
theorem C8_effective_lease
    (arg : Option Int) (dflt n : Int) :
    effLease none dflt = max 1 dflt
    ∧ effLease (some 0) dflt = max 1 dflt
    ∧ (n ≠ 0 → effLease (some n) dflt = max 1 n)
    ∧ 1 ≤ effLease arg dflt := by
  refine ⟨rfl, by simp [effLease, orDefault], ?_, one_le_effLease arg dflt⟩
  intro hn
  simp [effLease, orDefault, hn]

/-- Witness for C8 amended: a negative supplied lease is clamped to 1. -/
theorem C8_effective_lease_witness :
    effLease (some (-5)) 300 = 1 := by
  have h := (C8_effective_lease (some (-5)) 300 (-5)).2.2.1 (by decide)
  rw [h]
  decide

/-- C9: Purge deletes exactly the documents of this queue's type, irrespective
of visibility time and remaining attempts (future items included), returning
their number, and leaves documents of other queue types unchanged; Count
returns the number of documents of this queue's type including not-yet-visible
ones and does not change the store. -/
theorem C9_purge_count_scoped
    (q : Queue) (s : Store) :
    (q.purge s).1 = some ((s.filter (fun d => d.type == q.type)).length : Int)
    ∧ (q.purge s).2 = s.filter (fun d => d.type != q.type)
    ∧ (∀ d ∈ s, d.type = q.type → d ∉ (q.purge s).2)
    ∧ (∀ d ∈ s, d.type ≠ q.type → d ∈ (q.purge s).2)
    ∧ (∀ d ∈ (q.purge s).2, d ∈ s)
    ∧ (q.count s).1 = some ((s.filter (fun d => d.type == q.type)).length : Int)
    ∧ (q.count s).2 = s := by
  refine ⟨rfl, rfl, ?_, ?_, ?_, rfl, rfl⟩
  · intro d hd hty hmem
    have hne := List.of_mem_filter hmem
    simp only [bne_iff_ne, ne_eq, decide_eq_true_eq] at hne
    exact hne hty
  · intro d hd hty
    exact List.mem_filter.mpr ⟨hd, bne_iff_ne.mpr hty⟩
  · intro d hd
    exact List.mem_of_mem_filter hd

/-- Witness for C9: purging queue type A leaves the type-B document, even
though the type-A document was not yet visible. -/
theorem C9_purge_count_scoped_witness :
    ({ id := 2, idTime := 0, type := "B", proc := 0, runs := 3, data := 0 } : Doc)
      ∈ ((Queue.make "A").purge
        [{ id := 1, idTime := 0, type := "A", proc := 99999, runs := 3, data := 0 },
         { id := 2, idTime := 0, type := "B", proc := 0, runs := 3, data := 0 }]).2
    ∧ ((Queue.make "A").count
        [{ id := 1, idTime := 0, type := "A", proc := 99999, runs := 3, data := 0 },
         { id := 2, idTime := 0, type := "B", proc := 0, runs := 3, data := 0 }]).1
      = some 1 := by
  refine ⟨?_, by decide⟩
  exact (C9_purge_count_scoped (Queue.make "A")
    [{ id := 1, idTime := 0, type := "A", proc := 99999, runs := 3, data := 0 },
     { id := 2, idTime := 0, type := "B", proc := 0, runs := 3, data := 0 }]).2.2.2.1
    { id := 2, idTime := 0, type := "B", proc := 0, runs := 3, data := 0 }
    (by decide) (by decide)

/-- C10: an Enqueue with a maxTries override of 0 (a JavaScript-falsy number;
null, undefined and NaN likewise present as no usable value) silently ignores
the override and sets the inserted item's remainingAttempts to the queue
instance's configured default; with a nonzero configured default, send can
never insert an item whose remainingAttempts is zero. -/
theorem C10_zero_maxTries_ignored
    (q : Queue) (data : Payload) (delayUntil : Delay) (now : Int) (fresh : Nat) (s : Store)
    (hq : q.maxTries ≠ 0) :
    orDefault (some 0) q.maxTries = q.maxTries
    ∧ q.send data delayUntil (some 0) now fresh s = q.send data delayUntil none now fresh s
    ∧ (∀ maxTries : Option Int, ∀ d ∈ (q.send data delayUntil maxTries now fresh s).2,
        d ∉ s → d.runs ≠ 0) := by
  refine ⟨rfl, rfl, ?_⟩
  intro mt d hd hds
  rcases send_store_cases q data delayUntil mt now fresh s with hs | hs <;> rw [hs] at hd
  · exact absurd hd hds
  · rcases List.mem_append.mp hd with h | h
    · exact absurd h hds
    · simp only [List.mem_singleton] at h
      subst h
      show orDefault mt q.maxTries ≠ 0
      cases mt with
      | none => exact hq
      | some n =>
        by_cases h0 : n = 0
        · simpa [orDefault, h0] using hq
        · simp [orDefault, h0]

/-- Witness for C10: a zero override inserts with the default of 3. -/
theorem C10_zero_maxTries_ignored_witness :
    ((Queue.make "Q").send 9 Delay.absent (some 0) 1000 4 []).1
      = some { id := 4, sent := 1000, runs := 3, data := 9 }
    ∧ orDefault (some 0) (3 : Int) = 3 := by
  have h := C10_zero_maxTries_ignored (Queue.make "Q") 9 Delay.absent 1000 4 [] (by decide)
  exact ⟨by decide, h.1⟩

end QueueMongoDB
